import Mathlib

/-!
Verification of the snippet-extraction core of the include-file repository.

Lines are modelled as `List Char`. Rust byte-level operations (`str::len`,
byte-range slicing) are modelled through the UTF-8 byte size of each
character; a slice taken at a byte offset that is not a character boundary
is a Rust panic, modelled as `none`.
-/

/-- Two-character fence character: the grave accent used by Markdown fences. -/
def graveChar : Char := Char.ofNat 96

/-- Whitespace predicate of Rust's char::is_whitespace (the Unicode White_Space set). -/
def rustIsWhitespace (c : Char) : Bool :=
  c.toNat = 32 || c.toNat = 9 || c.toNat = 10 || c.toNat = 11 || c.toNat = 12 ||
  c.toNat = 13 || c.toNat = 133 || c.toNat = 160 || c.toNat = 0x1680 ||
  (0x2000 ≤ c.toNat && c.toNat ≤ 0x200A) || c.toNat = 0x2028 || c.toNat = 0x2029 ||
  c.toNat = 0x202F || c.toNat = 0x205F || c.toNat = 0x3000

/-- Model of Rust str::trim_start. -/
def rustTrimStart (s : List Char) : List Char :=
  s.dropWhile rustIsWhitespace

/-- Model of Rust str::trim_end. -/
def rustTrimEnd (s : List Char) : List Char :=
  (s.reverse.dropWhile rustIsWhitespace).reverse

/-- Model of Rust str::trim. -/
def rustTrim (s : List Char) : List Char :=
  rustTrimEnd (rustTrimStart s)

/-- UTF-8 byte length of a line, the value of Rust str::len. -/
def byteLen (s : List Char) : Nat :=
  (s.map Char.utf8Size).sum

/-- Model of the Rust byte slice s[k..]: `some` of the suffix when byte offset
k is a character boundary, `none` (a panic) otherwise. -/
def sliceFrom (s : List Char) (k : Nat) : Option (List Char) :=
  if k = 0 then some s
  else
    match s with
    | [] => none
    | c :: rest => if c.utf8Size ≤ k then sliceFrom rest (k - c.utf8Size) else none

/-- Model of the Rust byte slice s[..k]: `some` of the chars occupying the first
k bytes when byte offset k is a character boundary, `none` (a panic) otherwise. -/
def sliceUpTo (s : List Char) (k : Nat) : Option (List Char) :=
  if k = 0 then some []
  else
    match s with
    | [] => none
    | c :: rest =>
      if c.utf8Size ≤ k then (sliceUpTo rest (k - c.utf8Size)).map (c :: ·) else none

/-- Model of Rust str::contains with a string pattern (substring containment). -/
def containsSub (h n : List Char) : Bool :=
  if n.isPrefixOf h then true
  else
    match h with
    | [] => false
    | _ :: t => containsSub t n

/-- Model of finding the first occurrence of a pattern and slicing just past it:
`line.find(pat)` followed by taking the remainder after the occurrence. -/
def afterFirstOcc (pat : List Char) : List Char → Option (List Char)
  | [] => if pat.isPrefixOf ([] : List Char) then some [] else none
  | c :: t =>
    if pat.isPrefixOf (c :: t) then some ((c :: t).drop pat.length)
    else afterFirstOcc pat t

/-- Model of finding the first occurrence of a character and returning the text
strictly before it, as in `&s[..s.find(c)?]`. -/
def upToChar (c : Char) : List Char → Option (List Char)
  | [] => none
  | x :: t => if x = c then some [] else (upToChar c t).map (x :: ·)

/-- Model of finding the first occurrence of a character and returning the text
strictly after it, as in `&s[s.find(c)? + 1..]` for a one-byte character. -/
def splitAfterFirst (c : Char) : List Char → Option (List Char)
  | [] => none
  | x :: t => if x = c then some t else splitAfterFirst c t

/-- ASCII lower-casing of a single character, as Rust to_ascii_lowercase. -/
def asciiLower (c : Char) : Char :=
  if 65 ≤ c.toNat ∧ c.toNat ≤ 90 then Char.ofNat (c.toNat + 32) else c

/-- Model of Rust str::eq_ignore_ascii_case. -/
def eqIgnoreAsciiCase (a b : List Char) : Bool :=
  a.map asciiLower == b.map asciiLower

/-- Characters of a string literal, used to write concrete lines. -/
def toChars (s : String) : List Char := s.data

/-- Join collected lines with a single newline, as Vec::join("\n"). -/
def joinLines (ls : List (List Char)) : List Char :=
  (ls.intersperse ['\n']).foldr (· ++ ·) []

/-- Result of the extraction orchestrator: either joined content or a
not-found failure carrying the requested identifier. -/
inductive ExtractResult where
  | ok (content : List Char)
  | notFound (name : List Char)
deriving DecidableEq

/-- Extraction orchestrator of lib.rs extract: run the scanner, convert an
empty line list into a not-found failure carrying the name, otherwise join.
The outer `none` propagates a scanner panic. -/
def extract (f : List Char → List (List Char) → Option (List (List Char)))
    (name : List Char) (doc : List (List Char)) : Option ExtractResult :=
  match f name doc with
  | none => none
  | some lines => if lines = [] then some (.notFound name) else some (.ok (joinLines lines))

/-!
Fenced (Markdown) scanner, from src/markdown.rs collect, and the sibling
fenced extraction of src/code.rs extract. Both are state machines over the
line sequence; the pre-open search phase is shared code in the source and is
embedded once per variant. Collected content is accumulated in order.
-/

/-- Closing-fence test of markdown.rs collect lines 49-60: the line's byte
indentation equals the recorded indentation, its first character after
trimming is the fence character, and the leading run of that character has
length at least the recorded run length. -/
def mdCloses (ch : Char) (cnt ind : Nat) (line : List Char) : Bool :=
  let trimmed := rustTrimStart line
  let indent := byteLen line - byteLen trimmed
  if indent = ind then
    match trimmed.head? with
    | some c => if c = ch then cnt ≤ (trimmed.takeWhile (fun x => x = ch)).length else false
    | none => false
  else false

/-- Closing-fence test of code.rs extract lines 103-114: identical to
`mdCloses` except that the run length must equal the recorded run length
exactly. -/
def codeCloses (ch : Char) (cnt ind : Nat) (line : List Char) : Bool :=
  let trimmed := rustTrimStart line
  let indent := byteLen line - byteLen trimmed
  if indent = ind then
    match trimmed.head? with
    | some c => if c = ch then (trimmed.takeWhile (fun x => x = ch)).length = cnt else false
    | none => false
  else false

/-- In-fence phase of markdown.rs collect: stop at a closing fence, otherwise
collect the line with the opening byte indentation stripped when the line is
long enough (a panic when the offset is not a character boundary), verbatim
when shorter. -/
def mdInFence (ch : Char) (cnt ind : Nat) (acc : List (List Char)) :
    List (List Char) → Option (List (List Char))
  | [] => some acc
  | line :: rest =>
    if mdCloses ch cnt ind line then some acc
    else if ind ≤ byteLen line then
      match sliceFrom line ind with
      | none => none
      | some content => mdInFence ch cnt ind (acc ++ [content]) rest
    else mdInFence ch cnt ind (acc ++ [line]) rest

/-- In-fence phase of code.rs extract: as `mdInFence` with the exact-length
closing test. -/
def codeInFence (ch : Char) (cnt ind : Nat) (acc : List (List Char)) :
    List (List Char) → Option (List (List Char))
  | [] => some acc
  | line :: rest =>
    if codeCloses ch cnt ind line then some acc
    else if ind ≤ byteLen line then
      match sliceFrom line ind with
      | none => none
      | some content => codeInFence ch cnt ind (acc ++ [content]) rest
    else codeInFence ch cnt ind (acc ++ [line]) rest

/-- Search phase of markdown.rs collect lines 21-42: trim leading whitespace,
require a first character of grave accent or tilde repeated at least three
times, and require the remainder of the line to contain the requested name as
a substring; on a match enter the in-fence phase recording fence character,
run length, and byte indentation. -/
def mdSearch (name : List Char) : List (List Char) → Option (List (List Char))
  | [] => some []
  | line :: rest =>
    let trimmed := rustTrimStart line
    let indent := byteLen line - byteLen trimmed
    match trimmed.head? with
    | some c =>
      if c = graveChar ∨ c = '~' then
        let cnt := (trimmed.takeWhile (fun x => x = c)).length
        if 3 ≤ cnt then
          match sliceFrom trimmed cnt with
          | none => none
          | some afterFence =>
            if containsSub afterFence name then mdInFence c cnt indent [] rest
            else mdSearch name rest
        else mdSearch name rest
      else mdSearch name rest
    | none => mdSearch name rest

/-- Search phase of code.rs extract lines 75-96, entering its in-fence phase. -/
def codeSearch (name : List Char) : List (List Char) → Option (List (List Char))
  | [] => some []
  | line :: rest =>
    let trimmed := rustTrimStart line
    let indent := byteLen line - byteLen trimmed
    match trimmed.head? with
    | some c =>
      if c = graveChar ∨ c = '~' then
        let cnt := (trimmed.takeWhile (fun x => x = c)).length
        if 3 ≤ cnt then
          match sliceFrom trimmed cnt with
          | none => none
          | some afterFence =>
            if containsSub afterFence name then codeInFence c cnt indent [] rest
            else codeSearch name rest
        else codeSearch name rest
      else codeSearch name rest
    | none => codeSearch name rest

/-- Line collection of markdown.rs collect. -/
def mdCollect (name : List Char) (doc : List (List Char)) : Option (List (List Char)) :=
  mdSearch name doc

/-- Line collection of code.rs extract, before the emptiness check and join. -/
def codeCollect (name : List Char) (doc : List (List Char)) : Option (List (List Char)) :=
  codeSearch name doc

/-!
Attributed (AsciiDoc) scanner, from src/asciidoc.rs collect. The loop's
boolean state (in_block, delimiter_checked, use_delimiters) unfolds into
four phases: searching, first-line-after-attribute, delimited collection,
and un-delimited collection. It performs no byte slicing at computed
offsets beyond pattern occurrences, hence no panic and no `Option`.
-/

/-- Matching-id test of asciidoc.rs has_matching_id: find the first
occurrence of id=, require a double-quoted value, and compare the value to
the requested name exactly. -/
def adocHasMatchingId (line name : List Char) : Bool :=
  match afterFirstOcc (toChars "id=") line with
  | none => false
  | some after =>
    match after with
    | '"' :: rest =>
      match upToChar '"' rest with
      | some idValue => idValue == name
      | none => false
    | _ => false

/-- Attribute-line test of asciidoc.rs collect lines 25-27: the trimmed line
starts with the source-block attribute for the rust language and carries a
matching id. -/
def adocAttrMatch (name line : List Char) : Bool :=
  let trimmed := rustTrim line
  ((toChars "[source,rust").isPrefixOf trimmed || (toChars "[,rust").isPrefixOf trimmed)
    && adocHasMatchingId trimmed name

/-- Delimited collection phase of asciidoc.rs collect lines 46-52: collect
until a line trimming to the four-dash delimiter. -/
def adocDelim : List (List Char) → List (List Char)
  | [] => []
  | line :: rest =>
    if rustTrim line = toChars "----" then [] else line :: adocDelim rest

/-- Un-delimited collection phase of asciidoc.rs collect lines 53-60: collect
until a blank line or a line trimming to the four-dash delimiter. -/
def adocUndelim : List (List Char) → List (List Char)
  | [] => []
  | line :: rest =>
    if rustTrim line = ([] : List Char) ∨ rustTrim line = toChars "----" then []
    else line :: adocUndelim rest

/-- Delimiter-inference phase of asciidoc.rs collect lines 32-45: the first
line after a matching attribute line selects between delimited mode (the
opening delimiter is not collected), immediate termination on a blank line
or delimiter-from-an-outer-block, and un-delimited mode with that line as
the first content line. -/
def adocFirst : List (List Char) → List (List Char)
  | [] => []
  | line :: rest =>
    if rustTrim line = toChars "----" then adocDelim rest
    else if rustTrim line = ([] : List Char) ∨ rustTrim line = toChars "----" then []
    else line :: adocUndelim rest

/-- Search phase of asciidoc.rs collect lines 20-31. -/
def adocSearch (name : List Char) : List (List Char) → List (List Char)
  | [] => []
  | line :: rest =>
    if adocAttrMatch name line then adocFirst rest else adocSearch name rest

/-- Line collection of asciidoc.rs collect. -/
def adocCollect (name : List Char) (doc : List (List Char)) : List (List Char) :=
  adocSearch name doc

/-!
NamedBlock (Org) scanner, from src/org.rs collect. Directive recognition
slices fixed byte widths (7, 11, 9) off the trimmed line whenever it is at
least that many bytes long; those slices panic when the offset falls inside
a multi-byte character, so every directive test returns `Option Bool` with
`none` as the panic.
-/

/-- Name-declaration directive token. -/
def orgNameTok : List Char := toChars "#+NAME:"

/-- Begin-directive token. -/
def orgBeginTok : List Char := toChars "#+BEGIN_SRC"

/-- End-directive token. -/
def orgEndTok : List Char := toChars "#+END_SRC"

/-- Name test of org.rs has_matching_name: trim, check a case-insensitive
7-byte name-declaration token, then compare the whitespace-trimmed remainder
to the requested name exactly. -/
def orgHasMatchingName (line name : List Char) : Option Bool :=
  let trimmed := rustTrim line
  if 7 ≤ byteLen trimmed then
    match sliceUpTo trimmed 7 with
    | none => none
    | some pre =>
      if eqIgnoreAsciiCase pre orgNameTok then
        match sliceFrom trimmed 7 with
        | none => none
        | some rest => some (rustTrimStart rest == name)
      else some false
  else some false

/-- Language test of org.rs is_rust_block: trim, check a case-insensitive
11-byte begin-directive token, then require the remainder to be exactly the
rust language literal or that literal followed by a space. -/
def orgIsRustBlock (line : List Char) : Option Bool :=
  let trimmed := rustTrim line
  if 11 ≤ byteLen trimmed then
    match sliceUpTo trimmed 11 with
    | none => none
    | some pre =>
      if eqIgnoreAsciiCase pre orgBeginTok then
        match sliceFrom trimmed 11 with
        | none => none
        | some rest =>
          let r := rustTrimStart rest
          some (r == toChars "rust" || (toChars "rust ").isPrefixOf r)
      else some false
  else some false

/-- First condition of org.rs collect lines 23-25 on a trimmed line:
length at least 7, case-insensitive name-declaration token, and a matching
name, with Rust short-circuit order preserved. -/
def orgNameCond (name trimmed : List Char) : Option Bool :=
  if byteLen trimmed < 7 then some false
  else
    match sliceUpTo trimmed 7 with
    | none => none
    | some pre =>
      if eqIgnoreAsciiCase pre orgNameTok then orgHasMatchingName trimmed name
      else some false

/-- Second condition of org.rs collect lines 29-31 on a trimmed line:
length at least 11, case-insensitive begin-directive token, and the rust
language tag. -/
def orgBeginCond (trimmed : List Char) : Option Bool :=
  if byteLen trimmed < 11 then some false
  else
    match sliceUpTo trimmed 11 with
    | none => none
    | some pre =>
      if eqIgnoreAsciiCase pre orgBeginTok then orgIsRustBlock trimmed
      else some false

/-- End condition of org.rs collect line 44 on a trimmed line: length at
least 9 and a case-insensitive end-directive token. -/
def orgEndCond (trimmed : List Char) : Option Bool :=
  if byteLen trimmed < 9 then some false
  else
    match sliceUpTo trimmed 9 with
    | none => none
    | some pre => some (eqIgnoreAsciiCase pre orgEndTok)

/-- In-block phase of org.rs collect lines 40-50: collect lines verbatim
until a case-insensitive end-directive, or end of input. -/
def orgInBlock (acc : List (List Char)) : List (List Char) → Option (List (List Char))
  | [] => some acc
  | line :: rest =>
    match orgEndCond (rustTrim line) with
    | none => none
    | some true => some acc
    | some false => orgInBlock (acc ++ [line]) rest

/-- Search phase of org.rs collect lines 19-39, with the pending-name flag:
a matching name line arms the flag; with the flag armed, a begin-directive
with the rust tag opens the block and any other line resets the flag; the
begin-directive test is short-circuited away when the flag is not armed. -/
def orgScan (name : List Char) (foundName : Bool) :
    List (List Char) → Option (List (List Char))
  | [] => some []
  | line :: rest =>
    let trimmed := rustTrim line
    match orgNameCond name trimmed with
    | none => none
    | some true => orgScan name true rest
    | some false =>
      if foundName then
        match orgBeginCond trimmed with
        | none => none
        | some true => orgInBlock [] rest
        | some false => orgScan name false rest
      else orgScan name false rest

/-- Line collection of org.rs collect. -/
def orgCollect (name : List Char) (doc : List (List Char)) : Option (List (List Char)) :=
  orgScan name false doc

/-!
InlineAttributed (Textile) scanner, from src/textile.rs collect, and its
Block-Boundary Classifier is_block_tag. The classifier walks a line with a
peekable character iterator; the parenthesis and bracket groups are embedded
as auxiliary scans returning the remaining characters.
-/

/-- Iterator mode of the formatting-attribute walk of textile.rs
is_block_tag: the outer loop, the inner parenthesis-group loop with its
nesting depth, or the inner bracket-group loop. -/
inductive TagMode where
  | normal
  | paren (depth : Nat)
  | bracket
deriving DecidableEq

/-- Formatting-attribute walk of textile.rs is_block_tag lines 139-191 over a
single peekable character iterator, flattened into one structural recursion.
The outer loop accepts alignment characters, enters a parenthesis group at
depth 1 or a bracket group, tolerates stray closing parentheses, succeeds at
a period, and fails on anything else. Inside a parenthesis group, a peeked
period breaks back to the outer loop, which then consumes it and succeeds
(embedded directly as success); a closing parenthesis at depth 1 returns to
the outer loop; opening parentheses deepen; other characters are consumed.
Inside a bracket group everything through the first closing bracket is
consumed. Exhausting the line in any mode fails. -/
def tagWalk : List Char → TagMode → Bool
  | [], _ => false
  | c :: rest, .normal =>
    if c = '.' then true
    else if c = '<' ∨ c = '>' ∨ c = '=' then tagWalk rest .normal
    else if c = '(' then tagWalk rest (.paren 1)
    else if c = ')' then tagWalk rest .normal
    else if c = '[' then tagWalk rest .bracket
    else false
  | c :: rest, .paren depth =>
    if c = '.' then true
    else if c = ')' then
      (if depth ≤ 1 then tagWalk rest .normal else tagWalk rest (.paren (depth - 1)))
    else if c = '(' then tagWalk rest (.paren (depth + 1))
    else tagWalk rest (.paren depth)
  | c :: rest, .bracket =>
    if c = ']' then tagWalk rest .normal else tagWalk rest .bracket

/-- Fixed structural block-type names of textile.rs is_block_tag. -/
def txBlockTypes : List (List Char) :=
  [toChars "p", toChars "bq", toChars "bc", toChars "h1", toChars "h2", toChars "h3",
    toChars "h4", toChars "h5", toChars "h6", toChars "table", toChars "pre",
    toChars "notextile"]

/-- Block-Boundary Classifier of textile.rs is_block_tag: a non-empty line
that starts with a known block-type name whose remainder passes the
formatting-attribute walk. -/
def isBlockTag (line : List Char) : Bool :=
  if line = [] then false
  else txBlockTypes.any fun bt => bt.isPrefixOf line && tagWalk (line.drop bt.length) .normal

/-- Terminator test after a matched attribute pattern in textile.rs
has_matching_id: the remainder starts with one period or two. -/
def txAfterOk (a : List Char) : Bool :=
  (['.'] : List Char).isPrefixOf a || (toChars "..").isPrefixOf a

/-- Matching-id test of textile.rs has_matching_id: three equivalent
attribute orderings combining the rust language literal and the requested
identifier, each checked at its first occurrence in the line and required to
be followed by a period terminator. -/
def txHasMatchingId (line name : List Char) : Bool :=
  (match afterFirstOcc (toChars "bc(rust#" ++ name ++ [')']) line with
    | some a => txAfterOk a
    | none => false) ||
  (match afterFirstOcc (toChars "bc[rust](#" ++ name ++ [')']) line with
    | some a => txAfterOk a
    | none => false) ||
  (match afterFirstOcc (toChars "bc(#" ++ name ++ toChars ")[rust]") line with
    | some a => txAfterOk a
    | none => false)

/-- Trailing-blank removal of textile.rs collect lines 46-52: pop collected
lines from the end while they trim to empty. -/
def dropTrailingBlanks (ls : List (List Char)) : List (List Char) :=
  (ls.reverse.dropWhile (fun l => rustTrim l == ([] : List Char))).reverse

/-- In-block phase of textile.rs collect lines 39-65: in double-period mode
collect until the Block-Boundary Classifier accepts the trimmed line (then
drop trailing blanks); in single-period mode collect until a blank line. -/
def txIn (isDouble : Bool) (acc : List (List Char)) : List (List Char) → List (List Char)
  | [] => acc
  | line :: rest =>
    let trimmed := rustTrim line
    if isDouble then
      if isBlockTag trimmed then dropTrailingBlanks acc
      else txIn isDouble (acc ++ [line]) rest
    else
      if trimmed = [] then acc
      else txIn isDouble (acc ++ [line]) rest

/-- Search phase of textile.rs collect lines 21-38: a trimmed line starting
with the block introducer and matching the id opens a block whose mode is
double-period when the trimmed line contains two consecutive periods
anywhere; the first content fragment is the text after the first space and
must be non-empty, otherwise the search continues. -/
def txSearch (name : List Char) : List (List Char) → List (List Char)
  | [] => []
  | line :: rest =>
    let trimmed := rustTrim line
    if (toChars "bc").isPrefixOf trimmed && txHasMatchingId trimmed name then
      let isDouble := containsSub trimmed (toChars "..")
      match splitAfterFirst ' ' trimmed with
      | some content =>
        if content = [] then txSearch name rest else txIn isDouble [content] rest
      | none => txSearch name rest
    else txSearch name rest

/-- Line collection of textile.rs collect. -/
def txCollect (name : List Char) (doc : List (List Char)) : List (List Char) :=
  txSearch name doc

/-!
Spec-side vocabulary used by the claim statements about the Fenced scanner.
-/

/-- Byte indentation of a line: its byte length minus that of its
whitespace-trimmed form. -/
def lineIndent (line : List Char) : Nat :=
  byteLen line - byteLen (rustTrimStart line)

/-- First non-whitespace character of a line, when any. -/
def firstNonWs (line : List Char) : Option Char :=
  (rustTrimStart line).head?

/-- Length of the leading run of a given character after trimming leading
whitespace. -/
def leadingRun (c : Char) (line : List Char) : Nat :=
  ((rustTrimStart line).takeWhile (fun x => x = c)).length

/-- Content step applied by the Fenced scanner to a non-closing line inside
an open fence: strip the opening byte indentation when the line is at least
that long (a panic when the offset is not a character boundary), keep the
line verbatim otherwise. -/
def mdContentLine (ind : Nat) (line : List Char) : Option (List Char) :=
  if ind ≤ byteLen line then sliceFrom line ind else some line

/-- Opening test in the claim's vocabulary for C8: the first non-whitespace
character is a fence character with a leading run of at least three, and the
remainder of the trimmed line after that run contains the requested name as
a substring. -/
def mdOpensSpec (name line : List Char) : Bool :=
  match firstNonWs line with
  | some c =>
    decide (c = graveChar ∨ c = '~') && decide (3 ≤ leadingRun c line) &&
      containsSub ((rustTrimStart line).drop (leadingRun c line)) name
  | none => false

/-- Bounded fence runs: the line's leading run of either fence character
after trimming has length at most three, so that every opening run and
every closing candidate must have length exactly three. -/
def fenceRunsShort (line : List Char) : Prop :=
  leadingRun graveChar line ≤ 3 ∧ leadingRun '~' line ≤ 3


/-!
Claim C9 vocabulary: a document varies from another by directive-token case
when each line either is unchanged or rewrites one of the three Org
directive tokens, sitting after leading whitespace, to an ASCII-case
variant, leaving the rest of the line unchanged.
-/

/-- Directive tokens of the Org dialect. -/
def orgToks : List (List Char) := [orgNameTok, orgBeginTok, orgEndTok]

/-- Directive-token case variation between two lines. -/
def DirVar (l l' : List Char) : Prop :=
  l = l' ∨
    ∃ ws t t' r, (∀ c ∈ ws, rustIsWhitespace c = true) ∧
      (∃ tok ∈ orgToks, eqIgnoreAsciiCase t tok = true ∧ eqIgnoreAsciiCase t' tok = true) ∧
      l = ws ++ t ++ r ∧ l' = ws ++ t' ++ r

/-- Directive-token case variation lifted to scanner results: panics
correspond to panics and returned line lists correspond pointwise. -/
def OptDirVar : Option (List (List Char)) → Option (List (List Char)) → Prop
  | none, none => True
  | some a, some b => List.Forall₂ DirVar a b
  | _, _ => False

/-!
Byte-length and slice lemmas used throughout.
-/

theorem byteLen_nil : byteLen [] = 0 := rfl

theorem byteLen_cons (c : Char) (s : List Char) :
    byteLen (c :: s) = c.utf8Size + byteLen s := by
  simp [byteLen]

theorem byteLen_append (a b : List Char) : byteLen (a ++ b) = byteLen a + byteLen b := by
  simp [byteLen]

theorem byteLen_eq_length_of_ones {t : List Char} (h : ∀ c ∈ t, c.utf8Size = 1) :
    byteLen t = t.length := by
  induction t with
  | nil => rfl
  | cons c s ih =>
    rw [byteLen_cons, h c (List.mem_cons_self c s), ih fun x hx => h x (List.mem_cons_of_mem c hx),
      List.length_cons]
    omega

theorem sliceUpTo_zero (s : List Char) : sliceUpTo s 0 = some [] := by
  unfold sliceUpTo
  simp

theorem sliceFrom_zero (s : List Char) : sliceFrom s 0 = some s := by
  unfold sliceFrom
  simp

theorem sliceFrom_cons_of_ne {c : Char} {s : List Char} {k : Nat} (hk : k ≠ 0) :
    sliceFrom (c :: s) k =
      if c.utf8Size ≤ k then sliceFrom s (k - c.utf8Size) else none := by
  rw [sliceFrom, if_neg hk]

theorem sliceUpTo_cons_of_ne {c : Char} {s : List Char} {k : Nat} (hk : k ≠ 0) :
    sliceUpTo (c :: s) k =
      if c.utf8Size ≤ k then (sliceUpTo s (k - c.utf8Size)).map (c :: ·) else none := by
  rw [sliceUpTo, if_neg hk]

theorem sliceFrom_append (pre suf : List Char) :
    sliceFrom (pre ++ suf) (byteLen pre) = some suf := by
  induction pre with
  | nil => simpa [byteLen_nil] using sliceFrom_zero suf
  | cons c t ih =>
    have hpos : 0 < c.utf8Size := Char.utf8Size_pos c
    rw [List.cons_append, byteLen_cons,
      sliceFrom_cons_of_ne (by omega), if_pos (by omega)]
    simpa [Nat.add_sub_cancel_left] using ih

theorem sliceFrom_ones_drop {s : List Char} {k : Nat}
    (h : ∀ c ∈ s.take k, c.utf8Size = 1) (hk : k ≤ s.length) :
    sliceFrom s k = some (s.drop k) := by
  have hlen : byteLen (s.take k) = k := by
    rw [byteLen_eq_length_of_ones h, List.length_take]
    omega
  calc sliceFrom s k = sliceFrom (s.take k ++ s.drop k) (byteLen (s.take k)) := by
        rw [List.take_append_drop, hlen]
    _ = some (s.drop k) := sliceFrom_append _ _

theorem sliceUpTo_append_take {t : List Char} (r : List Char) {k : Nat}
    (h : ∀ c ∈ t, c.utf8Size = 1) (hk : k ≤ t.length) :
    sliceUpTo (t ++ r) k = some (t.take k) := by
  induction t generalizing k with
  | nil =>
    have hz : k = 0 := Nat.le_zero.mp (by simpa using hk)
    subst hz
    simp [sliceUpTo_zero]
  | cons c t ih =>
    cases k with
    | zero => simp [sliceUpTo_zero]
    | succ m =>
      have hc : c.utf8Size = 1 := h c (List.mem_cons_self c t)
      have hm : m ≤ t.length := by
        simp only [List.length_cons] at hk
        omega
      rw [List.cons_append, sliceUpTo_cons_of_ne (Nat.succ_ne_zero m), hc, if_pos (by omega),
        show m + 1 - 1 = m from rfl,
        ih (fun x hx => h x (List.mem_cons_of_mem c hx)) hm]
      simp [List.take_succ_cons]

theorem sliceUpTo_append_over {t : List Char} (r : List Char) {k : Nat}
    (h : ∀ c ∈ t, c.utf8Size = 1) (hk : t.length ≤ k) :
    sliceUpTo (t ++ r) k = (sliceUpTo r (k - t.length)).map (t ++ ·) := by
  induction t generalizing k with
  | nil => simp
  | cons c t ih =>
    have hc : c.utf8Size = 1 := h c (List.mem_cons_self c t)
    have hlen : t.length + 1 ≤ k := by
      simp only [List.length_cons] at hk
      omega
    rw [List.cons_append, sliceUpTo_cons_of_ne (by omega), hc, if_pos (by omega),
      ih (fun x hx => h x (List.mem_cons_of_mem c hx)) (by omega)]
    rw [Option.map_map]
    have harg : k - 1 - t.length = k - (c :: t).length := by
      simp only [List.length_cons]
      omega
    rw [harg]
    rfl

/-!
Character-case lemmas for the Org scanner's case-insensitive directives.
-/

theorem char_ofNat_toNat {n : Nat} (h : n < 55296) : (Char.ofNat n).toNat = n := by
  unfold Char.ofNat
  rw [dif_pos (Or.inl h)]
  rfl

theorem utf8Size_of_ascii {c : Char} (h : c.toNat < 128) : c.utf8Size = 1 := by
  unfold Char.utf8Size
  rw [if_pos]
  rw [UInt32.le_def]
  exact Nat.le_of_lt_succ h

theorem toNat_asciiLower (c : Char) :
    (asciiLower c).toNat = if 65 ≤ c.toNat ∧ c.toNat ≤ 90 then c.toNat + 32 else c.toNat := by
  unfold asciiLower
  by_cases h : 65 ≤ c.toNat ∧ c.toNat ≤ 90
  · rw [if_pos h, if_pos h]
    exact char_ofNat_toNat (by omega)
  · rw [if_neg h, if_neg h]

theorem ws_congr_toNat {c d : Char} (h : c.toNat = d.toNat) :
    rustIsWhitespace c = rustIsWhitespace d := by
  unfold rustIsWhitespace
  rw [h]

theorem ws_false_of_mid {c : Char} (h1 : 64 < c.toNat) (h2 : c.toNat < 123) :
    rustIsWhitespace c = false := by
  unfold rustIsWhitespace
  simp only [Bool.or_eq_false_iff, Bool.and_eq_false_iff, decide_eq_false_iff_not]
  omega

/-- Two characters with the same ASCII lower-casing have the same UTF-8 byte
size and the same whitespace classification, and when one of them is a
non-whitespace ASCII character so is the other. -/
theorem lowEq_props {c d : Char} (h : asciiLower c = asciiLower d)
    (hd : d.toNat < 128) (hw : rustIsWhitespace d = false) :
    c.utf8Size = 1 ∧ rustIsWhitespace c = false := by
  have ht : (asciiLower c).toNat = (asciiLower d).toNat := by rw [h]
  rw [toNat_asciiLower, toNat_asciiLower] at ht
  by_cases hc : 65 ≤ c.toNat ∧ c.toNat ≤ 90
  · refine ⟨utf8Size_of_ascii (by omega), ws_false_of_mid (by omega) (by omega)⟩
  · rw [if_neg hc] at ht
    by_cases hdu : 65 ≤ d.toNat ∧ d.toNat ≤ 90
    · rw [if_pos hdu] at ht
      refine ⟨utf8Size_of_ascii (by omega), ws_false_of_mid (by omega) (by omega)⟩
    · rw [if_neg hdu] at ht
      exact ⟨utf8Size_of_ascii (by omega), by rw [ws_congr_toNat ht]; exact hw⟩

theorem map_eq_iff_forall₂ {α β : Type} (f : α → β) :
    ∀ (a b : List α), List.map f a = List.map f b ↔
      List.Forall₂ (fun x y => f x = f y) a b := by
  intro a
  induction a with
  | nil =>
    intro b
    cases b <;> simp
  | cons x t ih =>
    intro b
    cases b with
    | nil => simp
    | cons y u => simp [ih u]

theorem forall₂_mem_left {α β : Type} {R : α → β → Prop} :
    ∀ {a : List α} {b : List β}, List.Forall₂ R a b → ∀ x ∈ a, ∃ y ∈ b, R x y := by
  intro a b h
  induction h with
  | nil => intro x hx; cases hx
  | cons hxy _ ih =>
    intro x hx
    rcases List.mem_cons.mp hx with rfl | hx
    · exact ⟨_, List.mem_cons_self _ _, hxy⟩
    · rcases ih x hx with ⟨y, hy, hR⟩
      exact ⟨y, List.mem_cons_of_mem _ hy, hR⟩

/-- Characters of an ASCII-case variant of a token made of non-whitespace
ASCII characters: same length, all one byte wide, none whitespace. -/
theorem tok_char_props {t tok : List Char} (h : eqIgnoreAsciiCase t tok = true)
    (htok : ∀ d ∈ tok, d.toNat < 128 ∧ rustIsWhitespace d = false) :
    t.length = tok.length ∧ ∀ c ∈ t, c.utf8Size = 1 ∧ rustIsWhitespace c = false := by
  have hmap : t.map asciiLower = tok.map asciiLower := by
    unfold eqIgnoreAsciiCase at h
    exact beq_iff_eq.mp h
  constructor
  · have := congrArg List.length hmap
    simpa using this
  · intro c hc
    rcases forall₂_mem_left ((map_eq_iff_forall₂ asciiLower t tok).mp hmap) c hc with
      ⟨d, hd, hlow⟩
    exact lowEq_props hlow (htok d hd).1 (htok d hd).2

theorem eqIgnoreAsciiCase_to_map {t tok : List Char} (h : eqIgnoreAsciiCase t tok = true) :
    t.map asciiLower = tok.map asciiLower := by
  unfold eqIgnoreAsciiCase at h
  exact beq_iff_eq.mp h

theorem ciCongr {u v w : List Char} (h : u.map asciiLower = v.map asciiLower) :
    eqIgnoreAsciiCase u w = eqIgnoreAsciiCase v w := by
  unfold eqIgnoreAsciiCase
  rw [h]

theorem ci_ne_at {u v : List Char} (i : Nat)
    (h : (u.map asciiLower)[i]? ≠ (v.map asciiLower)[i]?) :
    eqIgnoreAsciiCase u v = false := by
  unfold eqIgnoreAsciiCase
  rw [beq_eq_false_iff_ne]
  intro heq
  exact h (by rw [heq])

theorem ci_append_ne {tokA tokB : List Char} (x : List Char) (i : Nat)
    (hi : i < tokA.length)
    (hne : (tokA.map asciiLower)[i]? ≠ (tokB.map asciiLower)[i]?) :
    eqIgnoreAsciiCase (tokA ++ x) tokB = false := by
  apply ci_ne_at i
  rw [List.map_append, List.getElem?_append_left (by simpa using hi)]
  exact hne

/-!
Trimming-structure lemmas: a line of the shape whitespace ++ token ++ rest,
with the token non-empty and free of whitespace, trims to token ++
(end-trimmed rest) and that value is itself trim-stable.
-/

theorem dropWhile_all {p : Char → Bool} {ws : List Char} (h : ∀ c ∈ ws, p c = true)
    (s : List Char) : List.dropWhile p (ws ++ s) = List.dropWhile p s := by
  induction ws with
  | nil => simp
  | cons c t ih =>
    rw [List.cons_append, List.dropWhile_cons, if_pos (h c (List.mem_cons_self c t))]
    exact ih fun x hx => h x (List.mem_cons_of_mem c hx)

theorem dropWhile_head_false {p : Char → Bool} {s : List Char}
    (h : ∀ hd, s.head? = some hd → p hd = false) : List.dropWhile p s = s := by
  cases s with
  | nil => rfl
  | cons c t => rw [List.dropWhile_cons, if_neg (by simp [h c rfl])]

theorem head_dropWhile_false {p : Char → Bool} :
    ∀ {s : List Char} {hd : Char}, (List.dropWhile p s).head? = some hd → p hd = false := by
  intro s
  induction s with
  | nil => intro hd h; cases h
  | cons c t ih =>
    intro hd h
    rw [List.dropWhile_cons] at h
    by_cases hc : p c = true
    · rw [if_pos hc] at h
      exact ih h
    · rw [if_neg hc] at h
      rw [List.head?_cons, Option.some_inj] at h
      subst h
      simpa using hc

theorem trimEnd_concat {t : List Char} (r : List Char)
    (hlast : ∀ hd, t.reverse.head? = some hd → rustIsWhitespace hd = false) :
    rustTrimEnd (t ++ r) = t ++ rustTrimEnd r := by
  unfold rustTrimEnd
  rw [List.reverse_append, List.dropWhile_append]
  by_cases he : (List.dropWhile rustIsWhitespace r.reverse).isEmpty = true
  · rw [if_pos he]
    have hr : List.dropWhile rustIsWhitespace r.reverse = [] := by
      simpa [List.isEmpty_iff] using he
    rw [hr, dropWhile_head_false hlast]
    simp
  · rw [if_neg he]
    simp

theorem trimEnd_idem (r : List Char) : rustTrimEnd (rustTrimEnd r) = rustTrimEnd r := by
  unfold rustTrimEnd
  rw [List.reverse_reverse, dropWhile_head_false fun hd h => head_dropWhile_false h]

theorem head_trimEnd_reverse {r : List Char} {hd : Char}
    (h : (rustTrimEnd r).reverse.head? = some hd) : rustIsWhitespace hd = false := by
  unfold rustTrimEnd at h
  rw [List.reverse_reverse] at h
  exact head_dropWhile_false h

/-- Trim of a whitespace ++ token ++ rest line, together with trim-stability
of the result. -/
theorem rustTrim_decomp {ws t r : List Char}
    (hws : ∀ c ∈ ws, rustIsWhitespace c = true)
    (hne : t ≠ []) (hnw : ∀ c ∈ t, rustIsWhitespace c = false) :
    rustTrim (ws ++ t ++ r) = t ++ rustTrimEnd r ∧
      rustTrim (t ++ rustTrimEnd r) = t ++ rustTrimEnd r := by
  have hhead : ∀ hd, t.head? = some hd → rustIsWhitespace hd = false := by
    intro hd hh
    exact hnw hd (by cases t with
      | nil => cases hh
      | cons c u =>
        rw [List.head?_cons, Option.some_inj] at hh
        subst hh
        exact List.mem_cons_self _ _)
  have hlast : ∀ hd, t.reverse.head? = some hd → rustIsWhitespace hd = false := by
    intro hd hh
    refine hnw hd ?_
    have hmem : hd ∈ t.reverse := by
      cases hr : t.reverse with
      | nil => rw [hr] at hh; cases hh
      | cons a u =>
        rw [hr, List.head?_cons, Option.some_inj] at hh
        subst hh
        exact List.mem_cons_self _ _
    simpa using hmem
  have hstart : ∀ s : List Char, rustTrimStart (t ++ s) = t ++ s := by
    intro s
    unfold rustTrimStart
    apply dropWhile_head_false
    intro hd hh
    cases t with
    | nil => exact absurd rfl hne
    | cons c u =>
      rw [List.cons_append, List.head?_cons, Option.some_inj] at hh
      subst hh
      exact hnw _ (List.mem_cons_self _ _)
  constructor
  · have h1 : rustTrimStart (ws ++ t ++ r) = t ++ r := by
      unfold rustTrimStart
      rw [List.append_assoc, dropWhile_all hws]
      have := hstart r
      unfold rustTrimStart at this
      exact this
    unfold rustTrim
    rw [h1]
    exact trimEnd_concat r hlast
  · unfold rustTrim
    rw [hstart (rustTrimEnd r)]
    rw [trimEnd_concat (rustTrimEnd r) hlast, trimEnd_idem]

/-!
Evaluation of the Org directive conditions on a line of the shape
token-variant ++ rest: each condition's value depends only on which token
is varied and on the rest, never on the case of the variant itself.
-/

theorem ciSelf {t tok : List Char} (hmap : t.map asciiLower = tok.map asciiLower) :
    eqIgnoreAsciiCase t tok = true := by
  unfold eqIgnoreAsciiCase
  rw [hmap]
  exact beq_self_eq_true _

theorem byteLen_tok {t : List Char} (hones : ∀ c ∈ t, c.utf8Size = 1) {n : Nat}
    (hlen : t.length = n) : byteLen t = n := by
  rw [byteLen_eq_length_of_ones hones, hlen]

theorem sliceUpTo_tok_full {t : List Char} (r : List Char)
    (hones : ∀ c ∈ t, c.utf8Size = 1) {n : Nat} (hlen : t.length = n) :
    sliceUpTo (t ++ r) n = some t := by
  rw [← hlen, sliceUpTo_append_take r hones (Nat.le_refl _), List.take_length]

theorem sliceFrom_tok {t : List Char} (r : List Char)
    (hones : ∀ c ∈ t, c.utf8Size = 1) {n : Nat} (hlen : t.length = n) :
    sliceFrom (t ++ r) n = some r := by
  rw [← byteLen_tok hones hlen, sliceFrom_append]

theorem ci_take_congr {t tok : List Char} (hmap : t.map asciiLower = tok.map asciiLower)
    (k : Nat) (target : List Char) :
    eqIgnoreAsciiCase (t.take k) target = eqIgnoreAsciiCase (tok.take k) target := by
  apply ciCongr
  rw [List.map_take, hmap, List.map_take]

theorem ci_append_congr {t tok : List Char} (hmap : t.map asciiLower = tok.map asciiLower)
    (x : List Char) (target : List Char) :
    eqIgnoreAsciiCase (t ++ x) target = eqIgnoreAsciiCase (tok ++ x) target := by
  apply ciCongr
  rw [List.map_append, hmap, List.map_append]

theorem orgHasMatchingName_decomp {t r2 : List Char} (name : List Char)
    (hstable : rustTrim (t ++ r2) = t ++ r2)
    (hones : ∀ c ∈ t, c.utf8Size = 1) (hlen : t.length = 7)
    (hci : eqIgnoreAsciiCase t orgNameTok = true) :
    orgHasMatchingName (t ++ r2) name = some (rustTrimStart r2 == name) := by
  simp only [orgHasMatchingName, hstable]
  rw [byteLen_append, byteLen_tok hones hlen, if_pos (by omega)]
  rw [sliceUpTo_tok_full r2 hones hlen]
  simp only [hci, if_true]
  rw [sliceFrom_tok r2 hones hlen]

theorem orgIsRustBlock_decomp {t r2 : List Char}
    (hstable : rustTrim (t ++ r2) = t ++ r2)
    (hones : ∀ c ∈ t, c.utf8Size = 1) (hlen : t.length = 11)
    (hci : eqIgnoreAsciiCase t orgBeginTok = true) :
    orgIsRustBlock (t ++ r2) =
      some (rustTrimStart r2 == toChars "rust" ||
        (toChars "rust ").isPrefixOf (rustTrimStart r2)) := by
  simp only [orgIsRustBlock, hstable]
  rw [byteLen_append, byteLen_tok hones hlen, if_pos (by omega)]
  rw [sliceUpTo_tok_full r2 hones hlen]
  simp only [hci, if_true]
  rw [sliceFrom_tok r2 hones hlen]

theorem orgNameCond_on_tok {t r2 tok : List Char} (name : List Char)
    (hmap : t.map asciiLower = tok.map asciiLower)
    (hones : ∀ c ∈ t, c.utf8Size = 1)
    (hlen : t.length = tok.length)
    (hstable : rustTrim (t ++ r2) = t ++ r2)
    (htok : tok = orgNameTok ∨ tok = orgBeginTok ∨ tok = orgEndTok) :
    orgNameCond name (t ++ r2) =
      if tok = orgNameTok then some (rustTrimStart r2 == name) else some false := by
  rcases htok with rfl | rfl | rfl
  · rw [if_pos rfl]
    have hlen7 : t.length = 7 := by rw [hlen]; rfl
    simp only [orgNameCond]
    rw [byteLen_append, byteLen_tok hones hlen7, if_neg (by omega)]
    rw [sliceUpTo_tok_full r2 hones hlen7]
    simp only [ciSelf hmap, if_true]
    exact orgHasMatchingName_decomp name hstable hones hlen7 (ciSelf hmap)
  · rw [if_neg (by decide)]
    have hlen11 : t.length = 11 := by rw [hlen]; rfl
    simp only [orgNameCond]
    rw [byteLen_append, byteLen_tok hones hlen11, if_neg (by omega)]
    rw [sliceUpTo_append_take r2 hones (by omega)]
    have hfalse : eqIgnoreAsciiCase (t.take 7) orgNameTok = false := by
      rw [ci_take_congr hmap 7 orgNameTok]
      decide
    simp only [hfalse, Bool.false_eq_true, if_false]
  · rw [if_neg (by decide)]
    have hlen9 : t.length = 9 := by rw [hlen]; rfl
    simp only [orgNameCond]
    rw [byteLen_append, byteLen_tok hones hlen9, if_neg (by omega)]
    rw [sliceUpTo_append_take r2 hones (by omega)]
    have hfalse : eqIgnoreAsciiCase (t.take 7) orgNameTok = false := by
      rw [ci_take_congr hmap 7 orgNameTok]
      decide
    simp only [hfalse, Bool.false_eq_true, if_false]

theorem orgBeginCond_on_tok {t r2 tok : List Char}
    (hmap : t.map asciiLower = tok.map asciiLower)
    (hones : ∀ c ∈ t, c.utf8Size = 1)
    (hlen : t.length = tok.length)
    (hstable : rustTrim (t ++ r2) = t ++ r2)
    (htok : tok = orgNameTok ∨ tok = orgBeginTok ∨ tok = orgEndTok) :
    orgBeginCond (t ++ r2) =
      if tok = orgBeginTok then
        some (rustTrimStart r2 == toChars "rust" ||
          (toChars "rust ").isPrefixOf (rustTrimStart r2))
      else if tok = orgNameTok then
        (if byteLen r2 < 4 then some false
          else match sliceUpTo r2 4 with
            | none => none
            | some _ => some false)
      else
        (if byteLen r2 < 2 then some false
          else match sliceUpTo r2 2 with
            | none => none
            | some _ => some false) := by
  rcases htok with rfl | rfl | rfl
  · rw [if_neg (by decide), if_pos rfl]
    have hlen7 : t.length = 7 := by rw [hlen]; rfl
    simp only [orgBeginCond]
    rw [byteLen_append, byteLen_tok hones hlen7]
    by_cases hb : byteLen r2 < 4
    · rw [if_pos (by omega), if_pos hb]
    · rw [if_neg (by omega), if_neg hb]
      rw [sliceUpTo_append_over r2 hones (by omega), hlen7,
        show 11 - 7 = 4 from rfl]
      cases hx : sliceUpTo r2 4 with
      | none => rfl
      | some x =>
        simp only [Option.map_some]
        have hfalse : eqIgnoreAsciiCase (t ++ x) orgBeginTok = false := by
          rw [ci_append_congr hmap x orgBeginTok]
          exact ci_append_ne x 2 (by decide) (by decide)
        simp [hfalse]
  · rw [if_pos rfl]
    have hlen11 : t.length = 11 := by rw [hlen]; rfl
    simp only [orgBeginCond]
    rw [byteLen_append, byteLen_tok hones hlen11, if_neg (by omega)]
    rw [sliceUpTo_tok_full r2 hones hlen11]
    simp only [ciSelf hmap, if_true]
    exact orgIsRustBlock_decomp hstable hones hlen11 (ciSelf hmap)
  · rw [if_neg (by decide), if_neg (by decide)]
    have hlen9 : t.length = 9 := by rw [hlen]; rfl
    simp only [orgBeginCond]
    rw [byteLen_append, byteLen_tok hones hlen9]
    by_cases hb : byteLen r2 < 2
    · rw [if_pos (by omega), if_pos hb]
    · rw [if_neg (by omega), if_neg hb]
      rw [sliceUpTo_append_over r2 hones (by omega), hlen9,
        show 11 - 9 = 2 from rfl]
      cases hx : sliceUpTo r2 2 with
      | none => rfl
      | some x =>
        simp only [Option.map_some]
        have hfalse : eqIgnoreAsciiCase (t ++ x) orgBeginTok = false := by
          rw [ci_append_congr hmap x orgBeginTok]
          exact ci_append_ne x 2 (by decide) (by decide)
        simp [hfalse]

theorem orgEndCond_on_tok {t r2 tok : List Char}
    (hmap : t.map asciiLower = tok.map asciiLower)
    (hones : ∀ c ∈ t, c.utf8Size = 1)
    (hlen : t.length = tok.length)
    (htok : tok = orgNameTok ∨ tok = orgBeginTok ∨ tok = orgEndTok) :
    orgEndCond (t ++ r2) =
      if tok = orgEndTok then some true
      else if tok = orgNameTok then
        (if byteLen r2 < 2 then some false
          else match sliceUpTo r2 2 with
            | none => none
            | some _ => some false)
      else some false := by
  rcases htok with rfl | rfl | rfl
  · rw [if_neg (by decide), if_pos rfl]
    have hlen7 : t.length = 7 := by rw [hlen]; rfl
    simp only [orgEndCond]
    rw [byteLen_append, byteLen_tok hones hlen7]
    by_cases hb : byteLen r2 < 2
    · rw [if_pos (by omega), if_pos hb]
    · rw [if_neg (by omega), if_neg hb]
      rw [sliceUpTo_append_over r2 hones (by omega), hlen7,
        show 9 - 7 = 2 from rfl]
      cases hx : sliceUpTo r2 2 with
      | none => rfl
      | some x =>
        simp only [Option.map_some]
        have hfalse : eqIgnoreAsciiCase (t ++ x) orgEndTok = false := by
          rw [ci_append_congr hmap x orgEndTok]
          exact ci_append_ne x 2 (by decide) (by decide)
        simp [hfalse]
  · rw [if_neg (by decide), if_neg (by decide)]
    have hlen11 : t.length = 11 := by rw [hlen]; rfl
    simp only [orgEndCond]
    rw [byteLen_append, byteLen_tok hones hlen11, if_neg (by omega)]
    rw [sliceUpTo_append_take r2 hones (by omega)]
    have hfalse : eqIgnoreAsciiCase (t.take 9) orgEndTok = false := by
      rw [ci_take_congr hmap 9 orgEndTok]
      decide
    simp only [hfalse]
  · rw [if_pos rfl]
    have hlen9 : t.length = 9 := by rw [hlen]; rfl
    simp only [orgEndCond]
    rw [byteLen_append, byteLen_tok hones hlen9, if_neg (by omega)]
    rw [sliceUpTo_tok_full r2 hones hlen9]
    simp only [ciSelf hmap]

/-!
Claim C1: the orchestrator succeeds exactly when the scanner yields at
least one content line.
-/

/-- C1: for every scanner and every document and name on which the scanner
completes with line list ls, the orchestrator reports the not-found failure
carrying the requested name exactly when ls is empty, never reports any
success in that case, and otherwise succeeds with the joined lines; in
particular both a document with no matching block and a matched block with
empty content (both of which make the scanner return an empty list) yield
not-found. -/
theorem c1_extract_success_iff_nonempty
    (f : List Char → List (List Char) → Option (List (List Char)))
    (name : List Char) (doc : List (List Char)) (ls : List (List Char))
    (h : f name doc = some ls) :
    (extract f name doc = some (ExtractResult.notFound name) ↔ ls = []) ∧
    (ls = [] → ∀ s, extract f name doc ≠ some (ExtractResult.ok s)) ∧
    (ls ≠ [] → extract f name doc = some (ExtractResult.ok (joinLines ls))) := by
  have hE : extract f name doc =
      if ls = [] then some (ExtractResult.notFound name)
      else some (ExtractResult.ok (joinLines ls)) := by
    simp only [extract, h]
  rw [hE]
  by_cases he : ls = []
  · subst he
    simp
  · simp [he]

/-- C1 witness: instantiated with the Fenced scanner on the empty document,
whose scan completes with the empty line list. -/
theorem c1_witness :
    (extract mdCollect (toChars "x") [] =
        some (ExtractResult.notFound (toChars "x")) ↔ ([] : List (List Char)) = []) ∧
    (([] : List (List Char)) = [] →
      ∀ s, extract mdCollect (toChars "x") [] ≠ some (ExtractResult.ok s)) ∧
    (([] : List (List Char)) ≠ [] →
      extract mdCollect (toChars "x") [] = some (ExtractResult.ok (joinLines []))) :=
  c1_extract_success_iff_nonempty mdCollect (toChars "x") [] [] (by decide)

/-!
Claim C10: the scanners slice at computed byte offsets that can fall inside
a multi-byte character; such inputs are panics of the Rust code, `none` in
this model. The Org scanner slices the first 7 bytes of any trimmed line at
least 7 bytes long, and the Markdown scanner slices the opening byte
indentation off every sufficiently long content line.
-/

/-- C10: the code panics on ordinary multi-byte input. The Org scanner
panics on the one-line document whose line has 8 bytes with a two-byte
character across byte offset 7, and the Markdown scanner panics inside an
open fence of byte indentation 1 on a content line starting with a two-byte
character. -/
theorem c10_multibyte_slice_panics :
    orgCollect (toChars "x") [toChars "abcdefé"] = none ∧
    mdCollect (toChars "t") [toChars " ```t", toChars "é"] = none := by decide

/-!
Claims C2, C3, C8: the Fenced scanner's content stripping, closing rule,
and opening rule. The spec-side vocabulary (a line's indentation, first
non-whitespace character, and leading run) is defined from the claims'
wording and relates to the embedded code by theorem.
-/


theorem mdInFence_cons (ch : Char) (cnt ind : Nat) (acc : List (List Char))
    (line : List Char) (rest : List (List Char)) :
    mdInFence ch cnt ind acc (line :: rest) =
      if mdCloses ch cnt ind line then some acc
      else
        Option.bind (mdContentLine ind line)
          (fun content => mdInFence ch cnt ind (acc ++ [content]) rest) := by
  by_cases hc : mdCloses ch cnt ind line
  · rw [if_pos hc]
    unfold mdInFence
    rw [if_pos hc]
  · rw [if_neg hc]
    show (if mdCloses ch cnt ind line = true then some acc
      else if ind ≤ byteLen line then
        match sliceFrom line ind with
        | none => none
        | some content => mdInFence ch cnt ind (acc ++ [content]) rest
      else mdInFence ch cnt ind (acc ++ [line]) rest) = _
    rw [if_neg hc]
    unfold mdContentLine
    by_cases hl : ind ≤ byteLen line
    · rw [if_pos hl, if_pos hl]
      cases sliceFrom line ind with
      | none => rfl
      | some content => rfl
    · rw [if_neg hl, if_neg hl]
      rfl

/-- C3: inside an open fence of character ch, run length cnt and byte
indentation ind, a line closes the block exactly when its indentation
equals ind, its first non-whitespace character is ch, and its leading run
of ch has length at least cnt; a closing line stops collection immediately
and a non-closing line (in particular one with a same-character run at a
different indentation or a shorter run) undergoes the ordinary content
step and scanning continues. -/
theorem c3_md_close_characterization (ch : Char) (cnt ind : Nat) (line : List Char)
    (acc : List (List Char)) (rest : List (List Char)) :
    (mdCloses ch cnt ind line = true ↔
      (lineIndent line = ind ∧ firstNonWs line = some ch ∧ cnt ≤ leadingRun ch line)) ∧
    (mdCloses ch cnt ind line = true →
      mdInFence ch cnt ind acc (line :: rest) = some acc) ∧
    (mdCloses ch cnt ind line = false →
      mdInFence ch cnt ind acc (line :: rest) =
        Option.bind (mdContentLine ind line)
          (fun content => mdInFence ch cnt ind (acc ++ [content]) rest)) := by
  refine ⟨?_, ?_, ?_⟩
  · unfold mdCloses lineIndent firstNonWs leadingRun
    by_cases hind : byteLen line - byteLen (rustTrimStart line) = ind
    · rw [if_pos hind]
      cases hh : (rustTrimStart line).head? with
      | none => simp [hh, hind]
      | some c =>
        by_cases hc : c = ch
        · subst hc
          simp [hh, hind]
        · simp [hh, hind, hc, Ne.symm hc]
    · simp [hind]
  · intro hc
    rw [mdInFence_cons, if_pos hc]
  · intro hc
    rw [mdInFence_cons, if_neg (by simp [hc])]

/-- C3 witness: the closing characterization evaluated on the closing line
of a two-space-indented tilde fence, and on a non-closing shorter run. -/
theorem c3_witness :
    mdInFence '~' 3 2 [toChars "a"] [toChars "  ~~~", toChars "x"] = some [toChars "a"] ∧
    mdInFence '~' 3 2 [] [toChars "  ~~", toChars "  ~~~"] = some [toChars "~~"] := by
  constructor
  · exact (c3_md_close_characterization '~' 3 2 (toChars "  ~~~") [toChars "a"]
      [toChars "x"]).2.1 (by decide)
  · rw [(c3_md_close_characterization '~' 3 2 (toChars "  ~~") []
      [toChars "  ~~~"]).2.2 (by decide)]
    decide

/-- C2 counterexample: inside a fence opened at byte indentation 1, the
content line consisting of the two non-whitespace characters a and b is
collected as just b: a line long enough that does not begin with the
opening indentation is still altered, contradicting the claim that such a
line is not altered. -/
theorem c2_counterexample :
    mdCollect (toChars "t") [toChars " ```t", toChars "ab", toChars " ```"] =
      some [toChars "b"] ∧ toChars "b" ≠ toChars "ab" := by decide

/-- C2 amended: inside an open fence of byte indentation ind, a non-closing
line shorter than ind bytes is kept verbatim, and a non-closing line of at
least ind bytes has exactly its first ind bytes removed regardless of
whether those bytes are whitespace. -/
theorem c2_strip_is_unconditional_byte_strip (ch : Char) (cnt ind : Nat)
    (acc : List (List Char)) (line : List Char) (rest : List (List Char))
    (hnc : mdCloses ch cnt ind line = false) :
    (byteLen line < ind →
      mdInFence ch cnt ind acc (line :: rest) = mdInFence ch cnt ind (acc ++ [line]) rest) ∧
    (∀ pre suf, line = pre ++ suf → byteLen pre = ind →
      mdInFence ch cnt ind acc (line :: rest) = mdInFence ch cnt ind (acc ++ [suf]) rest) := by
  constructor
  · intro hshort
    rw [mdInFence_cons, if_neg (by simp [hnc])]
    unfold mdContentLine
    rw [if_neg (by omega)]
    rfl
  · intro pre suf hsplit hlen
    rw [mdInFence_cons, if_neg (by simp [hnc])]
    subst hsplit
    unfold mdContentLine
    rw [if_pos (by rw [byteLen_append]; omega), ← hlen, sliceFrom_append]
    rfl

/-- C2 amended witness: the line ab inside a fence of byte indentation 1
splits as a ++ b and exactly its first byte is removed. -/
theorem c2_witness :
    mdInFence (Char.ofNat 96) 3 1 [] [toChars "ab"] =
      mdInFence (Char.ofNat 96) 3 1 [toChars "b"] [] :=
  (c2_strip_is_unconditional_byte_strip (Char.ofNat 96) 3 1 [] (toChars "ab") []
      (by decide)).2 (toChars "a") (toChars "b") (by decide) (by decide)


theorem mdSearch_cons (name line : List Char) (rest : List (List Char)) :
    mdSearch name (line :: rest) =
      match (rustTrimStart line).head? with
      | some c =>
        if c = graveChar ∨ c = '~' then
          if 3 ≤ ((rustTrimStart line).takeWhile (fun x => x = c)).length then
            match sliceFrom (rustTrimStart line)
                ((rustTrimStart line).takeWhile (fun x => x = c)).length with
            | none => none
            | some afterFence =>
              if containsSub afterFence name then
                mdInFence c ((rustTrimStart line).takeWhile (fun x => x = c)).length
                  (byteLen line - byteLen (rustTrimStart line)) [] rest
              else mdSearch name rest
          else mdSearch name rest
        else mdSearch name rest
      | none => mdSearch name rest := rfl

theorem fenceChar_utf8Size {c : Char} (h : c = graveChar ∨ c = '~') : c.utf8Size = 1 := by
  rcases h with h | h <;> subst h <;> decide

theorem sliceFrom_fence_run {c : Char} (hc : c = graveChar ∨ c = '~') (t : List Char) :
    sliceFrom t (t.takeWhile (fun x => x = c)).length =
      some (t.drop (t.takeWhile (fun x => x = c)).length) := by
  apply sliceFrom_ones_drop
  · intro x hx
    have htake : t.take (t.takeWhile (fun x => x = c)).length = t.takeWhile (fun x => x = c) :=
      (List.prefix_iff_eq_take.mp (List.takeWhile_prefix _)).symm
    rw [htake] at hx
    have : x = c := by simpa using List.mem_takeWhile_imp hx
    subst this
    exact fenceChar_utf8Size hc
  · exact (List.takeWhile_prefix _).length_le

/-- C8: a line opens a fenced block exactly when its first non-whitespace
character is a fence character (grave accent or tilde) with a leading run of
length at least three and the remainder of the trimmed line after the run
contains the requested name as a substring; on a match scanning enters the
in-fence phase recording that character, the run length, and the line's
byte indentation, and otherwise the search continues with the next line. -/
theorem c8_md_open_characterization (name line : List Char) (rest : List (List Char)) :
    (∀ c, firstNonWs line = some c → mdOpensSpec name line = true →
      mdSearch name (line :: rest) =
        mdInFence c (leadingRun c line) (lineIndent line) [] rest) ∧
    (mdOpensSpec name line = false → mdSearch name (line :: rest) = mdSearch name rest) := by
  constructor
  · intro c hc hopen
    unfold mdOpensSpec at hopen
    rw [hc] at hopen
    simp only [Bool.and_eq_true, decide_eq_true_eq] at hopen
    obtain ⟨⟨h1, h2⟩, h3⟩ := hopen
    unfold firstNonWs at hc
    rw [mdSearch_cons]
    simp only [hc]
    rw [if_pos h1]
    unfold leadingRun at h2
    rw [if_pos h2, sliceFrom_fence_run h1]
    simp only []
    rw [if_pos (by exact h3)]
    rfl
  · intro hopen
    unfold mdOpensSpec at hopen
    rw [mdSearch_cons]
    cases hc : (rustTrimStart line).head? with
    | none => rfl
    | some c =>
      unfold firstNonWs at hopen
      rw [hc] at hopen
      simp only [Bool.and_eq_true, decide_eq_true_eq, Bool.and_eq_false_iff,
        decide_eq_false_iff_not] at hopen
      simp only []
      by_cases h1 : c = graveChar ∨ c = '~'
      · rw [if_pos h1]
        by_cases h2 : 3 ≤ ((rustTrimStart line).takeWhile (fun x => x = c)).length
        · rw [if_pos h2, sliceFrom_fence_run h1]
          simp only []
          have h3 : containsSub
              ((rustTrimStart line).drop
                ((rustTrimStart line).takeWhile (fun x => x = c)).length) name = false := by
            rcases hopen with hopen | hopen
            · rcases hopen with hopen | hopen
              · exact absurd h1 hopen
              · exact absurd h2 (by unfold leadingRun at hopen; exact hopen)
            · exact hopen
          rw [if_neg (by simp [h3])]
        · rw [if_neg h2]
      · rw [if_neg h1]

/-- C8 witness: the characterization applied to an opening line with a
four-long tilde run and two spaces of indentation, and to a non-opening
line. -/
theorem c8_witness :
    mdSearch (toChars "ex") (toChars "  ~~~~rust ex" :: [toChars "a"]) =
      mdInFence '~' 4 2 [] [toChars "a"] ∧
    mdSearch (toChars "ex") (toChars "plain prose" :: [toChars "b"]) =
      mdSearch (toChars "ex") [toChars "b"] := by
  constructor
  · exact (c8_md_open_characterization (toChars "ex") (toChars "  ~~~~rust ex")
      [toChars "a"]).1 '~' (by decide) (by decide)
  · exact (c8_md_open_characterization (toChars "ex") (toChars "plain prose")
      [toChars "b"]).2 (by decide)

/-!
Claim C4: the two fenced-scanner variants. They share the search phase but
markdown.rs closes on a run of length at least the opening run while
code.rs requires exactly the opening run length, so they disagree whenever
a closing candidate's run is strictly longer.
-/

theorem codeInFence_cons (ch : Char) (cnt ind : Nat) (acc : List (List Char))
    (line : List Char) (rest : List (List Char)) :
    codeInFence ch cnt ind acc (line :: rest) =
      if codeCloses ch cnt ind line then some acc
      else
        Option.bind (mdContentLine ind line)
          (fun content => codeInFence ch cnt ind (acc ++ [content]) rest) := by
  by_cases hc : codeCloses ch cnt ind line
  · rw [if_pos hc]
    unfold codeInFence
    rw [if_pos hc]
  · rw [if_neg hc]
    show (if codeCloses ch cnt ind line = true then some acc
      else if ind ≤ byteLen line then
        match sliceFrom line ind with
        | none => none
        | some content => codeInFence ch cnt ind (acc ++ [content]) rest
      else codeInFence ch cnt ind (acc ++ [line]) rest) = _
    rw [if_neg hc]
    unfold mdContentLine
    by_cases hl : ind ≤ byteLen line
    · rw [if_pos hl, if_pos hl]
      cases sliceFrom line ind with
      | none => rfl
      | some content => rfl
    · rw [if_neg hl, if_neg hl]
      rfl

theorem codeSearch_cons (name line : List Char) (rest : List (List Char)) :
    codeSearch name (line :: rest) =
      match (rustTrimStart line).head? with
      | some c =>
        if c = graveChar ∨ c = '~' then
          if 3 ≤ ((rustTrimStart line).takeWhile (fun x => x = c)).length then
            match sliceFrom (rustTrimStart line)
                ((rustTrimStart line).takeWhile (fun x => x = c)).length with
            | none => none
            | some afterFence =>
              if containsSub afterFence name then
                codeInFence c ((rustTrimStart line).takeWhile (fun x => x = c)).length
                  (byteLen line - byteLen (rustTrimStart line)) [] rest
              else codeSearch name rest
          else codeSearch name rest
        else codeSearch name rest
      | none => codeSearch name rest := rfl


theorem closes_agree {ch : Char} (hch : ch = graveChar ∨ ch = '~') {line : List Char}
    (h : fenceRunsShort line) (ind : Nat) :
    mdCloses ch 3 ind line = codeCloses ch 3 ind line := by
  have hrun : ((rustTrimStart line).takeWhile (fun x => x = ch)).length ≤ 3 := by
    rcases hch with hg | ht
    · subst hg; exact h.1
    · subst ht; exact h.2
  unfold mdCloses codeCloses
  by_cases hind : byteLen line - byteLen (rustTrimStart line) = ind
  · rw [if_pos hind, if_pos hind]
    cases hh : (rustTrimStart line).head? with
    | none => rfl
    | some c =>
      simp only []
      by_cases hcc : c = ch
      · rw [if_pos hcc, if_pos hcc, decide_eq_decide]
        subst hcc
        omega
      · rw [if_neg hcc, if_neg hcc]
  · rw [if_neg hind, if_neg hind]

theorem inFence_agree {ch : Char} (hch : ch = graveChar ∨ ch = '~') :
    ∀ doc : List (List Char), (∀ l ∈ doc, fenceRunsShort l) →
      ∀ ind acc, mdInFence ch 3 ind acc doc = codeInFence ch 3 ind acc doc := by
  intro doc
  induction doc with
  | nil => intro _ ind acc; rfl
  | cons line rest ih =>
    intro h ind acc
    rw [mdInFence_cons, codeInFence_cons,
      closes_agree hch (h line (List.mem_cons_self line rest)) ind]
    by_cases hcl : codeCloses ch 3 ind line
    · rw [if_pos hcl, if_pos hcl]
    · rw [if_neg hcl, if_neg hcl]
      cases hm : mdContentLine ind line with
      | none => rfl
      | some content =>
        show mdInFence ch 3 ind (acc ++ [content]) rest =
          codeInFence ch 3 ind (acc ++ [content]) rest
        exact ih (fun l hl => h l (List.mem_cons_of_mem line hl)) ind (acc ++ [content])

theorem search_agree (name : List Char) :
    ∀ doc : List (List Char), (∀ l ∈ doc, fenceRunsShort l) →
      mdSearch name doc = codeSearch name doc := by
  intro doc
  induction doc with
  | nil => intro _; rfl
  | cons line rest ih =>
    intro h
    have hrest : ∀ l ∈ rest, fenceRunsShort l :=
      fun l hl => h l (List.mem_cons_of_mem line hl)
    rw [mdSearch_cons, codeSearch_cons]
    cases hh : (rustTrimStart line).head? with
    | none => exact ih hrest
    | some c =>
      simp only []
      by_cases h1 : c = graveChar ∨ c = '~'
      · rw [if_pos h1, if_pos h1]
        by_cases h2 : 3 ≤ ((rustTrimStart line).takeWhile (fun x => x = c)).length
        · rw [if_pos h2, if_pos h2, sliceFrom_fence_run h1]
          simp only []
          by_cases h3 : containsSub ((rustTrimStart line).drop
              ((rustTrimStart line).takeWhile (fun x => x = c)).length) name = true
          · rw [if_pos h3, if_pos h3]
            have hcnt : ((rustTrimStart line).takeWhile (fun x => x = c)).length = 3 := by
              have hshort := h line (List.mem_cons_self line rest)
              rcases h1 with hg | ht
              · subst hg
                have := hshort.1
                unfold leadingRun at this
                omega
              · subst ht
                have := hshort.2
                unfold leadingRun at this
                omega
            rw [hcnt]
            exact inFence_agree h1 rest hrest _ []
          · rw [if_neg h3, if_neg h3]
            exact ih hrest
        · rw [if_neg h2, if_neg h2]
          exact ih hrest
      · rw [if_neg h1, if_neg h1]
        exact ih hrest

/-- C4 counterexample: on the document whose closing candidate has a run of
four while the block opened with three, the Fenced scanner of markdown.rs
closes the block and returns one content line, while the variant of code.rs
treats the longer run as content and scans to end of input, so the two are
not extensionally equal. -/
theorem c4_counterexample :
    mdCollect (toChars "t") [toChars "```t", toChars "a", toChars "````"] =
        some [toChars "a"] ∧
    codeCollect (toChars "t") [toChars "```t", toChars "a", toChars "````"] =
        some [toChars "a", toChars "````"] ∧
    mdCollect (toChars "t") [toChars "```t", toChars "a", toChars "````"] ≠
      codeCollect (toChars "t") [toChars "```t", toChars "a", toChars "````"] := by
  refine ⟨by decide, by decide, by decide⟩

/-- C4 amended: the two variants agree on every document whose leading
fence-character runs never exceed length three, so that every closing
candidate's run has exactly the opening length; they disagree in general,
namely when a closing candidate's run is strictly longer than the opening
run. -/
theorem c4_variants_agree_on_short_runs (name : List Char) (doc : List (List Char))
    (h : ∀ l ∈ doc, fenceRunsShort l) :
    mdCollect name doc = codeCollect name doc :=
  search_agree name doc h

/-- C4 amended witness: the two variants agree on a concrete document with
three-long opening and closing runs. -/
theorem c4_witness :
    mdCollect (toChars "t") [toChars "```t", toChars "a", toChars "```"] =
      codeCollect (toChars "t") [toChars "```t", toChars "a", toChars "```"] :=
  c4_variants_agree_on_short_runs (toChars "t")
    [toChars "```t", toChars "a", toChars "```"]
    (by
      intro l hl
      simp only [List.mem_cons, List.not_mem_nil, or_false] at hl
      rcases hl with h | h | h <;> subst h <;> exact ⟨by decide, by decide⟩)

/-!
Claim C5: the Attributed scanner's delimiter inference.
-/

theorem adocDelim_cons (l : List Char) (rest : List (List Char)) :
    adocDelim (l :: rest) =
      if rustTrim l = toChars "----" then [] else l :: adocDelim rest := rfl

theorem adocUndelim_cons (l : List Char) (rest : List (List Char)) :
    adocUndelim (l :: rest) =
      if rustTrim l = ([] : List Char) ∨ rustTrim l = toChars "----" then []
      else l :: adocUndelim rest := rfl

theorem adocFirst_cons (l : List Char) (rest : List (List Char)) :
    adocFirst (l :: rest) =
      if rustTrim l = toChars "----" then adocDelim rest
      else if rustTrim l = ([] : List Char) ∨ rustTrim l = toChars "----" then []
      else l :: adocUndelim rest := rfl

theorem adocSearch_cons (name l : List Char) (rest : List (List Char)) :
    adocSearch name (l :: rest) =
      if adocAttrMatch name l then adocFirst rest else adocSearch name rest := rfl

theorem adocDelim_eq_takeWhile (ls : List (List Char)) :
    adocDelim ls = ls.takeWhile (fun l => !(rustTrim l == toChars "----")) := by
  induction ls with
  | nil => rfl
  | cons l rest ih =>
    by_cases h : rustTrim l = toChars "----" <;>
      simp [adocDelim_cons, List.takeWhile_cons, h, ih]

theorem adocUndelim_eq_takeWhile (ls : List (List Char)) :
    adocUndelim ls =
      ls.takeWhile (fun l => !(rustTrim l == ([] : List Char) || rustTrim l == toChars "----")) := by
  induction ls with
  | nil => rfl
  | cons l rest ih =>
    by_cases h : rustTrim l = ([] : List Char) ∨ rustTrim l = toChars "----"
    · rw [adocUndelim_cons, if_pos h, List.takeWhile_cons,
        if_neg (by rcases h with h | h <;> simp [h])]
    · push_neg at h
      rw [adocUndelim_cons, if_neg (by tauto), List.takeWhile_cons,
        if_pos (by simp [h.1, h.2]), ih]

/-- C5: right after an attribute line matching the requested id, the very
next line decides the mode. When it trims to the four-dash delimiter the
block is delimited: that opening delimiter is not collected and content is
the following lines up to the first line trimming to the delimiter. When it
is neither the delimiter nor blank the block is un-delimited: that line is
the first content line followed by the lines up to the first blank-or-
delimiter line. When it is blank nothing is collected. -/
theorem c5_adoc_delimiter_inference (name attr next : List Char) (rest : List (List Char))
    (hm : adocAttrMatch name attr = true) :
    (rustTrim next = toChars "----" →
      adocSearch name (attr :: next :: rest) =
        rest.takeWhile (fun l => !(rustTrim l == toChars "----"))) ∧
    (rustTrim next ≠ toChars "----" → rustTrim next ≠ [] →
      adocSearch name (attr :: next :: rest) =
        next :: rest.takeWhile
          (fun l => !(rustTrim l == ([] : List Char) || rustTrim l == toChars "----"))) ∧
    (rustTrim next = [] → adocSearch name (attr :: next :: rest) = []) := by
  refine ⟨?_, ?_, ?_⟩
  · intro h
    rw [adocSearch_cons, if_pos hm, adocFirst_cons, if_pos h, adocDelim_eq_takeWhile]
  · intro h1 h2
    rw [adocSearch_cons, if_pos hm, adocFirst_cons, if_neg h1, if_neg (by tauto),
      adocUndelim_eq_takeWhile]
  · intro h
    rw [adocSearch_cons, if_pos hm, adocFirst_cons,
      if_neg (by rw [h]; decide), if_pos (Or.inl h)]

/-- C5 witness: the delimiter-inference characterization applied to a
matching shorthand attribute line followed by a delimiter, and to the same
attribute line followed by un-delimited content. -/
theorem c5_witness :
    adocSearch (toChars "x") [toChars "[,rust,id=\"x\"]", toChars "----",
        toChars "let a;", toChars "----", toChars "z"] =
      [toChars "let a;", toChars "----", toChars "z"].takeWhile
        (fun l => !(rustTrim l == toChars "----")) ∧
    adocSearch (toChars "x") [toChars "[,rust,id=\"x\"]", toChars "let a;",
        toChars "", toChars "z"] =
      toChars "let a;" :: [toChars "", toChars "z"].takeWhile
        (fun l => !(rustTrim l == ([] : List Char) || rustTrim l == toChars "----")) := by
  constructor
  · exact (c5_adoc_delimiter_inference (toChars "x") (toChars "[,rust,id=\"x\"]")
      (toChars "----") [toChars "let a;", toChars "----", toChars "z"] (by decide)).1
      (by decide)
  · exact (c5_adoc_delimiter_inference (toChars "x") (toChars "[,rust,id=\"x\"]")
      (toChars "let a;") [toChars "", toChars "z"] (by decide)).2.1
      (by decide) (by decide)

/-!
Claim C6: the InlineAttributed scanner's termination modes. The mode is
decided by two consecutive periods occurring anywhere in the trimmed
opening line, which differs from the claim's single-versus-double
terminator reading.
-/

theorem txIn_cons (isDouble : Bool) (acc : List (List Char)) (line : List Char)
    (rest : List (List Char)) :
    txIn isDouble acc (line :: rest) =
      if isDouble then
        (if isBlockTag (rustTrim line) then dropTrailingBlanks acc
          else txIn isDouble (acc ++ [line]) rest)
      else
        (if rustTrim line = [] then acc else txIn isDouble (acc ++ [line]) rest) := rfl

theorem txSearch_cons (name line : List Char) (rest : List (List Char)) :
    txSearch name (line :: rest) =
      if ((toChars "bc").isPrefixOf (rustTrim line) &&
          txHasMatchingId (rustTrim line) name) = true then
        match splitAfterFirst ' ' (rustTrim line) with
        | some content =>
          if content = [] then txSearch name rest
          else txIn (containsSub (rustTrim line) (toChars "..")) [content] rest
        | none => txSearch name rest
      else txSearch name rest := rfl

/-- C6 counterexample: the opening line has a single-period terminator after
its attribute group, yet because two consecutive periods occur later in the
same line the block is scanned in double-period mode and collects past the
first blank line, contradicting the claim that a block opened with a
single-period terminator collects content until the first blank line. -/
theorem c6_counterexample :
    txCollect (toChars "x")
        [toChars "bc(rust#x). a..b", toChars "", toChars "c", toChars "p. t"] =
      [toChars "a..b", toChars "", toChars "c"] ∧
    txCollect (toChars "x")
        [toChars "bc(rust#x). a..b", toChars "", toChars "c", toChars "p. t"] ≠
      [toChars "a..b"] := by
  refine ⟨by decide, by decide⟩

/-- C6 amended: the mode is decided by whether the trimmed opening line
contains two consecutive periods anywhere (not only as the attribute
terminator). A block in single mode collects content until the first blank
line, exclusive. A block in double mode stays open across blank lines and
collects until the first line the Block-Boundary Classifier accepts, with
the trailing blank lines before that terminator removed, or through end of
input with no trailing-blank removal. -/
theorem c6_tx_termination :
    (∀ name line rest content,
      ((toChars "bc").isPrefixOf (rustTrim line) &&
          txHasMatchingId (rustTrim line) name) = true →
      splitAfterFirst ' ' (rustTrim line) = some content →
      content ≠ [] →
      txSearch name (line :: rest) =
        txIn (containsSub (rustTrim line) (toChars "..")) [content] rest) ∧
    (∀ acc lines, txIn false acc lines =
      acc ++ lines.takeWhile (fun l => !(rustTrim l == ([] : List Char)))) ∧
    (∀ acc lines, txIn true acc lines =
      if lines.any (fun l => isBlockTag (rustTrim l)) then
        dropTrailingBlanks (acc ++ lines.takeWhile (fun l => !isBlockTag (rustTrim l)))
      else acc ++ lines) := by
  refine ⟨?_, ?_, ?_⟩
  · intro name line rest content hmatch hsplit hne
    rw [txSearch_cons, if_pos hmatch]
    simp only [hsplit]
    rw [if_neg hne]
  · intro acc lines
    induction lines generalizing acc with
    | nil => simp [txIn]
    | cons l rest ih =>
      rw [txIn_cons, List.takeWhile_cons]
      by_cases h : rustTrim l = []
      · simp [h]
      · simp only [if_false, Bool.false_eq_true]
        rw [if_neg (by simp [h]), if_pos (by simp [h]), ih]
        simp
  · intro acc lines
    induction lines generalizing acc with
    | nil => simp [txIn]
    | cons l rest ih =>
      by_cases h : isBlockTag (rustTrim l) = true
      · simp [txIn_cons, h, List.takeWhile_cons, List.any_cons]
      · have hb : isBlockTag (rustTrim l) = false := by simpa using h
        have hstep : txIn true acc (l :: rest) = txIn true (acc ++ [l]) rest := by
          rw [txIn_cons, if_pos rfl, if_neg (by simp [hb])]
        rw [hstep, ih (acc ++ [l])]
        by_cases ha : (rest.any fun x => isBlockTag (rustTrim x)) = true
        · simp [hb, ha, List.takeWhile_cons, List.any_cons]
        · have ha' : (rest.any fun x => isBlockTag (rustTrim x)) = false := by simpa using ha
          simp [hb, ha', List.takeWhile_cons, List.any_cons]

/-- C6 amended witness: the opening step applied to a concrete matching
double-period line. -/
theorem c6_witness :
    txSearch (toChars "x") [toChars "bc(rust#x).. y", toChars "z"] =
      txIn (containsSub (rustTrim (toChars "bc(rust#x).. y")) (toChars ".."))
        [toChars "y"] [toChars "z"] :=
  c6_tx_termination.1 (toChars "x") (toChars "bc(rust#x).. y") [toChars "z"]
    (toChars "y") (by decide) (by decide) (by decide)

/-!
Claim C7: the NamedBlock scanner's two-line adjacency requirement.
-/

theorem orgScan_cons (name : List Char) (fn : Bool) (line : List Char)
    (rest : List (List Char)) :
    orgScan name fn (line :: rest) =
      match orgNameCond name (rustTrim line) with
      | none => none
      | some true => orgScan name true rest
      | some false =>
        if fn then
          match orgBeginCond (rustTrim line) with
          | none => none
          | some true => orgInBlock [] rest
          | some false => orgScan name false rest
        else orgScan name false rest := rfl

/-- C7: with a pending name armed by a matching name-declaration line, a
next line that is neither a matching name-declaration nor a rust
begin-directive (in particular a blank line) discards the pending name, so
scanning continues exactly as if no name had been seen; only a rust
begin-directive as the very next line opens the block. -/
theorem c7_org_adjacency (name line : List Char) (rest : List (List Char)) :
    (orgNameCond name (rustTrim line) = some false →
      orgBeginCond (rustTrim line) = some false →
      orgScan name true (line :: rest) = orgScan name false rest) ∧
    (orgNameCond name (rustTrim line) = some false →
      orgBeginCond (rustTrim line) = some true →
      orgScan name true (line :: rest) = orgInBlock [] rest) ∧
    (rustTrim line = [] →
      orgScan name true (line :: rest) = orgScan name false rest) := by
  have hblank1 : rustTrim line = [] → orgNameCond name (rustTrim line) = some false := by
    intro h
    rw [h]
    rfl
  have hblank2 : rustTrim line = [] → orgBeginCond (rustTrim line) = some false := by
    intro h
    rw [h]
    rfl
  refine ⟨?_, ?_, ?_⟩
  · intro h1 h2
    rw [orgScan_cons]
    simp only [h1, h2, if_true]
  · intro h1 h2
    rw [orgScan_cons]
    simp only [h1, h2, if_true]
  · intro h
    rw [orgScan_cons]
    simp only [hblank1 h, hblank2 h, if_true]

/-!
Claim C9: Org extraction under directive-token case variation. The
decisions of all three directive conditions are invariant, so related
documents panic together, fail together, and select the same line
positions; the collected lines themselves are only related (a collected
content line that happens to start with a rewritten directive token changes
case with it), which refutes literal equality of results.
-/

theorem org_conds_var {l l' : List Char} (name : List Char) (h : DirVar l l') :
    orgNameCond name (rustTrim l) = orgNameCond name (rustTrim l') ∧
    orgBeginCond (rustTrim l) = orgBeginCond (rustTrim l') ∧
    orgEndCond (rustTrim l) = orgEndCond (rustTrim l') := by
  rcases h with rfl | ⟨ws, t, t', r, hws, ⟨tok, htokmem, hci, hci'⟩, rfl, rfl⟩
  · exact ⟨rfl, rfl, rfl⟩
  · have htok3 : tok = orgNameTok ∨ tok = orgBeginTok ∨ tok = orgEndTok := by
      simpa [orgToks] using htokmem
    have htokp : ∀ d ∈ tok, d.toNat < 128 ∧ rustIsWhitespace d = false := by
      rcases htok3 with rfl | rfl | rfl <;> decide
    obtain ⟨hlen, hprops⟩ := tok_char_props hci htokp
    obtain ⟨hlen', hprops'⟩ := tok_char_props hci' htokp
    have hmap := eqIgnoreAsciiCase_to_map hci
    have hmap' := eqIgnoreAsciiCase_to_map hci'
    have hones : ∀ c ∈ t, c.utf8Size = 1 := fun c hc => (hprops c hc).1
    have hones' : ∀ c ∈ t', c.utf8Size = 1 := fun c hc => (hprops' c hc).1
    have hnw : ∀ c ∈ t, rustIsWhitespace c = false := fun c hc => (hprops c hc).2
    have hnw' : ∀ c ∈ t', rustIsWhitespace c = false := fun c hc => (hprops' c hc).2
    have hne : t ≠ [] := by
      intro h0
      subst h0
      rcases htok3 with rfl | rfl | rfl <;> exact absurd hlen (by decide)
    have hne' : t' ≠ [] := by
      intro h0
      subst h0
      rcases htok3 with rfl | rfl | rfl <;> exact absurd hlen' (by decide)
    obtain ⟨htr, hstable⟩ := rustTrim_decomp hws hne hnw (r := r)
    obtain ⟨htr', hstable'⟩ := rustTrim_decomp hws hne' hnw' (r := r)
    rw [htr, htr']
    refine ⟨?_, ?_, ?_⟩
    · rw [orgNameCond_on_tok name hmap hones hlen hstable htok3,
        orgNameCond_on_tok name hmap' hones' hlen' hstable' htok3]
    · rw [orgBeginCond_on_tok hmap hones hlen hstable htok3,
        orgBeginCond_on_tok hmap' hones' hlen' hstable' htok3]
    · rw [orgEndCond_on_tok hmap hones hlen htok3,
        orgEndCond_on_tok hmap' hones' hlen' htok3]

theorem orgInBlock_cons (acc : List (List Char)) (line : List Char)
    (rest : List (List Char)) :
    orgInBlock acc (line :: rest) =
      match orgEndCond (rustTrim line) with
      | none => none
      | some true => some acc
      | some false => orgInBlock (acc ++ [line]) rest := rfl

theorem orgInBlock_var : ∀ {doc doc' : List (List Char)}, List.Forall₂ DirVar doc doc' →
    ∀ {acc acc' : List (List Char)}, List.Forall₂ DirVar acc acc' →
      OptDirVar (orgInBlock acc doc) (orgInBlock acc' doc') := by
  intro doc doc' h
  induction h with
  | nil => intro acc acc' hacc; exact hacc
  | @cons l l' ls ls' hll hrest ih =>
    intro acc acc' hacc
    have hend := (org_conds_var [] hll).2.2
    rw [orgInBlock_cons, orgInBlock_cons, hend]
    cases hE : orgEndCond (rustTrim l') with
    | none => exact trivial
    | some b =>
      cases b with
      | true => exact hacc
      | false => exact ih (List.rel_append hacc (List.Forall₂.cons hll List.Forall₂.nil))

theorem orgScan_var (name : List Char) : ∀ {doc doc' : List (List Char)},
    List.Forall₂ DirVar doc doc' →
    ∀ fn, OptDirVar (orgScan name fn doc) (orgScan name fn doc') := by
  intro doc doc' h
  induction h with
  | nil => intro fn; exact List.Forall₂.nil
  | @cons l l' ls ls' hll hrest ih =>
    intro fn
    obtain ⟨hname, hbegin, _⟩ := org_conds_var name hll
    rw [orgScan_cons, orgScan_cons, hname, hbegin]
    cases hN : orgNameCond name (rustTrim l') with
    | none => exact trivial
    | some bn =>
      cases bn with
      | true => exact ih true
      | false =>
        cases fn with
        | false => exact ih false
        | true =>
          rw [if_pos rfl, if_pos rfl]
          cases hB : orgBeginCond (rustTrim l') with
          | none => exact trivial
          | some bb =>
            cases bb with
            | true => exact orgInBlock_var hrest List.Forall₂.nil
            | false => exact ih false

/-- C9 counterexample: two documents identical except that every occurrence
of a directive token is lower-cased produce different extraction results,
because a collected content line beginning with a name-declaration token is
collected verbatim and so changes case with the document. -/
theorem c9_counterexample :
    orgCollect (toChars "x")
        [toChars "#+NAME: x", toChars "#+BEGIN_SRC rust",
          toChars "#+NAME: y", toChars "#+END_SRC"] =
      some [toChars "#+NAME: y"] ∧
    orgCollect (toChars "x")
        [toChars "#+name: x", toChars "#+begin_src rust",
          toChars "#+name: y", toChars "#+end_src"] =
      some [toChars "#+name: y"] ∧
    orgCollect (toChars "x")
        [toChars "#+NAME: x", toChars "#+BEGIN_SRC rust",
          toChars "#+NAME: y", toChars "#+END_SRC"] ≠
      orgCollect (toChars "x")
        [toChars "#+name: x", toChars "#+begin_src rust",
          toChars "#+name: y", toChars "#+end_src"] := by
  refine ⟨by decide, by decide, by decide⟩

/-- C9 amended: under directive-token case variation of a document, Org
extraction panics on one document exactly when it panics on the other,
returns not-found (the empty collection) on one exactly when on the other,
and on success selects the same line positions with collected lines equal
up to the case of rewritten directive tokens; results are literally equal
whenever no collected line is itself a rewritten directive line. -/
theorem c9_directive_case_invariance (name : List Char) {doc doc' : List (List Char)}
    (h : List.Forall₂ DirVar doc doc') :
    OptDirVar (orgCollect name doc) (orgCollect name doc') ∧
    ((orgCollect name doc = none) ↔ (orgCollect name doc' = none)) ∧
    ((orgCollect name doc = some []) ↔ (orgCollect name doc' = some [])) := by
  have h0 : OptDirVar (orgCollect name doc) (orgCollect name doc') :=
    orgScan_var name h false
  refine ⟨h0, ?_, ?_⟩
  · cases hA : orgCollect name doc with
    | none =>
      cases hB : orgCollect name doc' with
      | none => simp
      | some b => rw [hA, hB] at h0; exact h0.elim
    | some a =>
      cases hB : orgCollect name doc' with
      | none => rw [hA, hB] at h0; exact h0.elim
      | some b => simp
  · cases hA : orgCollect name doc with
    | none =>
      cases hB : orgCollect name doc' with
      | none => simp
      | some b => rw [hA, hB] at h0; exact h0.elim
    | some a =>
      cases hB : orgCollect name doc' with
      | none => rw [hA, hB] at h0; exact h0.elim
      | some b =>
        rw [hA, hB] at h0
        simp only [Option.some_inj]
        constructor
        · intro ha
          subst ha
          exact (List.forall₂_nil_left_iff.mp h0)
        · intro hb
          subst hb
          exact (List.forall₂_nil_right_iff.mp h0)

/-- C9 amended witness: the invariance applied to a concrete pair of
documents related by lower-casing the three directive tokens. -/
theorem c9_witness :
    OptDirVar
      (orgCollect (toChars "x")
        [toChars "#+NAME: x", toChars "#+BEGIN_SRC rust", toChars "let a = 1;",
          toChars "#+END_SRC"])
      (orgCollect (toChars "x")
        [toChars "#+name: x", toChars "#+begin_src rust", toChars "let a = 1;",
          toChars "#+end_src"]) :=
  (c9_directive_case_invariance (toChars "x")
    (List.Forall₂.cons
      (Or.inr ⟨[], toChars "#+NAME:", toChars "#+name:", toChars " x",
        by decide,
        ⟨orgNameTok, by simp [orgToks], by decide, by decide⟩,
        by decide, by decide⟩)
      (List.Forall₂.cons
        (Or.inr ⟨[], toChars "#+BEGIN_SRC", toChars "#+begin_src", toChars " rust",
          by decide,
          ⟨orgBeginTok, by simp [orgToks], by decide, by decide⟩,
          by decide, by decide⟩)
        (List.Forall₂.cons (Or.inl rfl)
          (List.Forall₂.cons
            (Or.inr ⟨[], toChars "#+END_SRC", toChars "#+end_src", [],
              by decide,
              ⟨orgEndTok, by simp [orgToks], by decide, by decide⟩,
              by decide, by decide⟩)
            List.Forall₂.nil))))).1

/-- C7 witness: a blank line while a pending name is armed discards it; the
canonical broken-adjacency document therefore yields the empty collection,
which the orchestrator reports as not-found. -/
theorem c7_witness :
    orgScan (toChars "x") true
        [toChars "", toChars "#+BEGIN_SRC rust", toChars "a", toChars "#+END_SRC"] =
      orgScan (toChars "x") false
        [toChars "#+BEGIN_SRC rust", toChars "a", toChars "#+END_SRC"] :=
  (c7_org_adjacency (toChars "x") (toChars "")
    [toChars "#+BEGIN_SRC rust", toChars "a", toChars "#+END_SRC"]).2.2 (by decide)
